import Mathlib

/-!
Verification model of the `bucketlist` approximate record-matching library
(`bucketlist/bucketlist.py` and `bucketlist/storage.py`).

Python dictionaries preserve insertion order, so they are modelled as
insertion-ordered association lists (`List (K × A)`) together with the helper
operations `dictLookup`, `dictInsert` (assignment: replace in place on an
existing key, append on a new one) and `dictErase` (`del`).  Python `float`
arithmetic is modelled as exact arithmetic in a linear ordered field; the
float power operator `**` is passed in explicitly as a function (instantiated
with `Real.rpow` or with monoid powers on `ℚ`).  Python sets of keys are
modelled as duplicate-free lists.
-/

namespace Bucketlist

variable {A E K G V S R W σ : Type}

/-- Lookup in an insertion-ordered association list (Python `dict[key]` /
`dict.get(key)`): the value at the first matching key, if any. -/
def dictLookup [DecidableEq K] : List (K × A) → K → Option A
  | [], _ => none
  | (k, a) :: rest, key => if k = key then some a else dictLookup rest key

/-- Python `dict` assignment `d[key] = a`: replace the value in place when the
key is present (keeping its position), otherwise append the new binding. -/
def dictInsert [DecidableEq K] : List (K × A) → K → A → List (K × A)
  | [], key, a => [(key, a)]
  | (k, b) :: rest, key, a =>
      if k = key then (k, a) :: rest else (k, b) :: dictInsert rest key a

/-- Python `del d[key]`: drop the first binding of `key`. -/
def dictErase [DecidableEq K] : List (K × A) → K → List (K × A)
  | [], _ => []
  | (k, b) :: rest, key => if k = key then rest else (k, b) :: dictErase rest key

/-- Python `set.add`: append the element when it is not already present. -/
def setAdd [DecidableEq K] (l : List K) (k : K) : List K :=
  if k ∈ l then l else l ++ [k]

/-! ### TopN (`bucketlist.py`, class `TopN`)

`TopN` keeps its retained candidates in the Python dict `self._data`, mapping
a group key to a `(value, score)` pair.  The default `group_by` is
`lambda x: uuid.uuid4().int`, a stateful function returning a fresh random
identifier on every call; to capture both a user-supplied pure `group_by` and
the fresh-identifier default in one shallow embedding, `group_by` receives the
number of `put` calls made so far (`counter`) as an extra argument: a pure
function ignores it, the uuid default is modelled as returning the counter
itself (distinct on every call, as the code comment assumes). -/

structure TopN (K V S : Type) where
  n : ℕ
  data : List (K × V × S)
  counter : ℕ
  group_by : ℕ → V → K

/-- The retained group keys, in insertion order. -/
def TopN.keys (t : TopN K V S) : List K := t.data.map Prod.fst

/-- `self._data.values()`: the retained `(value, score)` pairs, in insertion
order. -/
def TopN.pairs (t : TopN K V S) : List (V × S) := t.data.map Prod.snd

/-- `TopN._add`: store `(v, s)` under `key` unless that exact `(value, score)`
pair is already among `self._data.values()`. -/
def TopN.add [DecidableEq K] [DecidableEq V] [DecidableEq S]
    (t : TopN K V S) (key : K) (v : V) (s : S) : TopN K V S :=
  if (v, s) ∈ t.pairs then t else { t with data := dictInsert t.data key (v, s) }

/-- `TopN._lowest`: the minimum score among the retained entries (`none` when
empty; Python raises `ValueError` there, which is unreachable for `n ≥ 1`). -/
def TopN.lowest? [LinearOrder S] (t : TopN K V S) : Option S :=
  match t.data.map (fun e => e.2.2) with
  | [] => none
  | s :: rest => some (rest.foldl min s)

/-- `TopN._get_lowest`: the key of the first retained entry whose score equals
the minimum `m`. -/
def TopN.getLowest [DecidableEq S] (t : TopN K V S) (m : S) : Option K :=
  (t.data.find? (fun e => decide (e.2.2 = m))).map Prod.fst

/-- `TopN.put`. -/
def TopN.put [DecidableEq K] [DecidableEq V] [LinearOrder S]
    (t : TopN K V S) (v : V) (s : S) : TopN K V S :=
  let key := t.group_by t.counter v
  let t1 : TopN K V S := { t with counter := t.counter + 1 }
  match dictLookup t1.data key with
  | some old =>
      if old.2 < s then { t1 with data := dictInsert t1.data key (v, s) } else t1
  | none =>
      if t1.data.length < t1.n then t1.add key v s
      else
        match t1.lowest? with
        | none => t1
        | some m =>
            if m < s then
              match t1.getLowest m with
              | none => t1
              | some lk => TopN.add { t1 with data := dictErase t1.data lk } key v s
            else t1

/-- `TopN.get`: the retained `(value, score)` pairs. -/
def TopN.get (t : TopN K V S) : List (V × S) := t.pairs

/-- `TopN.clear`: empty `self._data` (the call counter of the stateful default
`group_by` keeps running). -/
def TopN.clear (t : TopN K V S) : TopN K V S := { t with data := [] }

/-- A `group_by` that ignores the call counter: a user-supplied grouping
function. -/
def pureGroup (g : ℕ → V → K) : Prop := ∀ c c' v, g c v = g c' v

/-- The default `group_by` (`uuid.uuid4().int`): the produced key depends only
on the call counter and is distinct on every call. -/
def freshGroup (g : ℕ → V → K) : Prop :=
  (∀ c v w, g c v = g c w) ∧ ∀ c c' v w, g c v = g c' w → c = c'

/-- The two grouping disciplines that actually occur in the code. -/
def goodGroup (g : ℕ → V → K) : Prop := pureGroup g ∨ freshGroup g

/-! ### Bucket (`bucketlist.py`, class `Bucket`)

`Bucket.find` is duck-typed over its collaborators: it uses the matcher only
through `matcher.components(item, tokenized)` (and of the returned pair only
component 0, the score), and the storage only through `__contains__` and
`get`.  The storage is therefore embedded as its read behaviour
`K → Option (List V)` (`none` for an absent key; for `InMemoryStorage`,
`__contains__` holds exactly when `get` returns a value), and the matcher as
the function returning the `(score, components)` pair.  Python float scores
are modelled in a linear ordered field. -/

structure Bucket (K G V R : Type) where
  components : V → V → R × List (String × R)
  analyzer : V → V
  indexer : V → List K
  storage : K → Option (List V)
  topn : TopN G V R

/-- The inner loop of `Bucket.find` over one key's stored sequence: each
candidate whose score is nonzero (Python float truthiness of `if score[0]:`)
is fed into TopN and folded into `best_score`; after each candidate the loop
breaks as soon as `best_score > 0.9999`. -/
def scanList [DecidableEq G] [DecidableEq V] [LinearOrderedField R]
    (cmp : V → V → R × List (String × R)) (q : V) :
    List V → TopN G V R → R → TopN G V R × R
  | [], t, best => (t, best)
  | item :: rest, t, best =>
      let s := (cmp item q).1
      let t' := if s ≠ 0 then t.put item s else t
      let best' := if s ≠ 0 then max s best else best
      if best' > 9999 / 10000 then (t', best')
      else scanList cmp q rest t' best'

/-- The outer loop of `Bucket.find` over the blocking keys: a key absent from
storage exits the whole loop (`break` in the source, line 112 of
`bucketlist.py`), and the loop also stops once the best score exceeds
`0.9999`. -/
def scanKeys [DecidableEq G] [DecidableEq V] [LinearOrderedField R]
    (st : K → Option (List V)) (cmp : V → V → R × List (String × R)) (q : V) :
    List K → TopN G V R → R → TopN G V R
  | [], t, _ => t
  | k :: rest, t, best =>
      match st k with
      | none => t
      | some items =>
          let p := scanList cmp q items t best
          if p.2 > 9999 / 10000 then p.1 else scanKeys st cmp q rest p.1 p.2

/-- `Bucket.find`: analyze the query, compute the blocking keys, clear TopN,
scan, and return TopN's contents. -/
def Bucket.find [DecidableEq G] [DecidableEq V] [LinearOrderedField R]
    (b : Bucket K G V R) (record : V) : List (V × R) :=
  let tokenized := b.analyzer record
  (scanKeys b.storage b.components tokenized (b.indexer tokenized) b.topn.clear 0).get

/-- Concrete bucket exercising `find` with a half-scoring candidate stored
before a perfectly scoring one under a single blocking key. -/
def cb4 : Bucket ℕ ℕ ℕ ℚ where
  components := fun v _ => (if v = 1 then 1/2 else 1, [])
  analyzer := id
  indexer := fun _ => [0]
  storage := fun k => if k = 0 then some [1, 2] else none
  topn := TopN.mk 2 [] 0 (fun c _ => c)

/-! ### Matcher (`bucketlist.py`, class `Matcher`)

Records are Python dicts; the matcher only ever reads `record[key]` for field
names appearing in its rules, so records are embedded as total functions from
field names to values.  Python floats are modelled in a commutative ring `R`,
with the float power operator `**` passed in as `pow` (instantiated with
`Real.rpow` for real-exponent weights, or with monoid powers for concrete
test arithmetic). -/

inductive PyErr where
  | notImplementedError
  | typeError
deriving DecidableEq

/-- The second element of a `sequential` tuple: either a Python callable or a
non-callable value (which `Matcher.__init__` rejects with `TypeError`). -/
inductive GateSpec (V : Type) where
  | callable (f : V → V → Bool)
  | notCallable

/-- Python `callable(e[1])` on the second element of a `sequential` tuple. -/
def GateSpec.isCallable : GateSpec V → Bool
  | callable _ => true
  | notCallable => false

structure Matcher (V R W : Type) where
  stone_geary : R
  must : List String
  either : List String
  sequential : List (String × (V → V → Bool))
  should : List (String × (V → V → R) × W)

/-- `Matcher.__init__`: store `stone_geary`, `must`, `either`, and the
`should` tuples (an absent third element defaults to weight `1.0`); any
`sequential` entry whose second element is not callable raises `TypeError`
before the matcher is built. -/
def Matcher.init [One W] (must either : List String)
    (sequential : List (String × GateSpec V))
    (should : List (String × (V → V → R) × Option W)) (stone_geary : R) :
    Except PyErr (Matcher V R W) :=
  if sequential.all (fun e => e.2.isCallable) then
    .ok { stone_geary := stone_geary
          must := must
          either := either
          sequential := sequential.filterMap (fun e =>
            match e.2 with
            | .callable f => some (e.1, f)
            | .notCallable => none)
          should := should.map (fun e => (e.1, e.2.1, e.2.2.getD 1)) }
  else .error .typeError

/-- Whether a Python call completed without raising. -/
def exceptOk : Except E A → Bool
  | .ok _ => true
  | .error _ => false

/-- The `should` loop of `Matcher.components`: record each rule's raw
similarity in the components dict under the label `key + str(i)` and multiply
the running score by `(stone_geary + (1 - stone_geary) * sim) ** weight`
(the loop's running `weight` total is computed by the source but never
used). -/
def shouldAux [CommRing R] (pow : R → W → R) (sg : R) (r1 r2 : String → V) :
    List (String × (V → V → R) × W) → ℕ → R → List (String × R) → R × List (String × R)
  | [], _, score, comp => (score, comp)
  | (k, sim, w) :: rest, i, score, comp =>
      let s := sim (r1 k) (r2 k)
      shouldAux pow sg r1 r2 rest (i + 1)
        (score * pow (sg + (1 - sg) * s) w)
        (dictInsert comp (k ++ toString i) s)

/-- `Matcher.components`: the `must` gate, then the `either` gate, then the
`sequential` gates in listed order; a failing gate yields `(0.0, {})`,
otherwise the `should` rules are aggregated. -/
def Matcher.components [DecidableEq V] [CommRing R] (pow : R → W → R)
    (m : Matcher V R W) (r1 r2 : String → V) : R × List (String × R) :=
  if m.must ≠ [] ∧ ¬ m.must.all (fun k => decide (r1 k = r2 k)) then (0, [])
  else if m.either ≠ [] ∧ ¬ m.either.any (fun k => decide (r1 k = r2 k)) then (0, [])
  else if ¬ m.sequential.all (fun p => p.2 (r1 p.1) (r2 p.1)) then (0, [])
  else shouldAux pow m.stone_geary r1 r2 m.should 0 1 []

/-- The component labels `key + str(i)` of a `should` rule list whose first
rule sits at position `i`. -/
def shouldLabels : List (String × (V → V → R) × W) → ℕ → List String
  | [], _ => []
  | (k, _, _) :: rest, i => (k ++ toString i) :: shouldLabels rest (i + 1)

/-- The `(label, similarity)` entries the `should` loop produces on `r1`,
`r2`, the first rule sitting at position `i`. -/
def shouldEntries (r1 r2 : String → V) :
    List (String × (V → V → R) × W) → ℕ → List (String × R)
  | [], _ => []
  | (k, sim, _) :: rest, i =>
      (k ++ toString i, sim (r1 k) (r2 k)) :: shouldEntries r1 r2 rest (i + 1)

/-- All three gates of `Matcher.components` pass on `r1`, `r2`. -/
def gatesPass (m : Matcher V R W) (r1 r2 : String → V) : Prop :=
  (m.must = [] ∨ ∀ k ∈ m.must, r1 k = r2 k) ∧
  (m.either = [] ∨ ∃ k ∈ m.either, r1 k = r2 k) ∧
  ∀ p ∈ m.sequential, p.2 (r1 p.1) (r2 p.1) = true

/-- A matcher whose rule at position 0 (field `a1`) and rule at position 10
(field `a`) share the component label `a10`. -/
def cm8 : Matcher ℕ ℤ ℕ where
  stone_geary := 0
  must := []
  either := []
  sequential := []
  should :=
    [("a1", fun _ _ => 7, 1),
     ("b", fun _ _ => 0, 1), ("b", fun _ _ => 0, 1), ("b", fun _ _ => 0, 1),
     ("b", fun _ _ => 0, 1), ("b", fun _ _ => 0, 1), ("b", fun _ _ => 0, 1),
     ("b", fun _ _ => 0, 1), ("b", fun _ _ => 0, 1), ("b", fun _ _ => 0, 1),
     ("a", fun _ _ => 9, 1)]

set_option maxRecDepth 10000

/-! ### Storage (`storage.py`) -/

/-- `InMemoryStorage`: a `defaultdict(list)` from key to the append-ordered
list of stored values. -/
structure InMemoryStorage (K V : Type) where
  data : List (K × List V)

/-- A freshly constructed `InMemoryStorage`. -/
def InMemoryStorage.empty : InMemoryStorage K V := ⟨[]⟩

/-- `self._data[key].append(value)`: append to the existing entry in place, or
create the entry `[value]` at the end (the `defaultdict` default). -/
def imsPut [DecidableEq K] : List (K × List V) → K → V → List (K × List V)
  | [], k, v => [(k, [v])]
  | (k', vs) :: rest, k, v =>
      if k' = k then (k', vs ++ [v]) :: rest else (k', vs) :: imsPut rest k v

/-- `InMemoryStorage.put`. -/
def InMemoryStorage.put [DecidableEq K] (st : InMemoryStorage K V) (k : K) (v : V) :
    InMemoryStorage K V := ⟨imsPut st.data k v⟩

/-- `InMemoryStorage.get` uses `dict.get`, which looks the key up without
installing a `defaultdict` default; the call returns the result together with
the store it leaves behind, so the absence of a side effect is part of the
model. -/
def InMemoryStorage.get [DecidableEq K] (st : InMemoryStorage K V) (k : K) :
    Option (List V) × InMemoryStorage K V := (dictLookup st.data k, st)

/-- `InMemoryStorage.__contains__`. -/
def InMemoryStorage.containsKey [DecidableEq K] (st : InMemoryStorage K V) (k : K) : Bool :=
  (dictLookup st.data k).isSome

/-- `InMemoryStorage.__len__`: the number of distinct keys. -/
def InMemoryStorage.len (st : InMemoryStorage K V) : ℕ := st.data.length

/-- The capability surface of the storage wrapped by `CachedStorage`, over a
backing state `σ`: exactly what `CachedStorage` invokes on `self._storage`
(`get` on the disk-backed variants is a pure read). -/
structure InnerStorage (K V σ : Type) where
  containsKey : σ → K → Bool
  get : σ → K → Option (List V)
  put_all : σ → K → List V → σ
  close : σ → σ

/-- `CachedStorage`: a bounded write-back cache (`cache`), a dirty-key set
(`cache_dirty`, a Python `set` modelled as a duplicate-free list), and the
wrapped storage with its state. -/
structure CachedStorage (K V σ : Type) where
  inner : InnerStorage K V σ
  innerState : σ
  cache : List (K × List V)
  cache_size : ℕ
  cache_dirty : List K

/-- `CachedStorage._check_cache_limit`: once the cache holds more entries than
`cache_size`, evict the earliest-inserted key.  For a dirty key the source
calls `super().put(...)`, which is `AbstractStorage.put` and raises
`NotImplementedError` (`storage.py` lines 131-132), so the pop below it is
never reached; a clean key is popped and discarded. -/
def CachedStorage.check_cache_limit [DecidableEq K] (st : CachedStorage K V σ) :
    Except PyErr (CachedStorage K V σ) :=
  if st.cache.length > st.cache_size then
    match st.cache with
    | [] => .ok st
    | (k, _) :: _ =>
        if k ∈ st.cache_dirty then .error .notImplementedError
        else .ok { st with cache := dictErase st.cache k,
                           cache_dirty := st.cache_dirty.erase k }
  else .ok st

/-- `CachedStorage.put`: mark the key dirty; append in place on a cache hit,
otherwise read the inner storage's current sequence, append, apply the cache
limit, and install the result. -/
def CachedStorage.put [DecidableEq K] (st : CachedStorage K V σ) (key : K) (value : V) :
    Except PyErr (CachedStorage K V σ) :=
  let st1 : CachedStorage K V σ := { st with cache_dirty := setAdd st.cache_dirty key }
  match dictLookup st1.cache key with
  | some vs => .ok { st1 with cache := dictInsert st1.cache key (vs ++ [value]) }
  | none =>
      let existing := ((st1.inner.get st1.innerState key).getD []) ++ [value]
      match st1.check_cache_limit with
      | .error e => .error e
      | .ok st2 => .ok { st2 with cache := dictInsert st2.cache key existing }

/-- `CachedStorage.get`: serve a cache hit; on a miss read the inner storage
and, when a value was found, cache it (applying the cache limit first). -/
def CachedStorage.get [DecidableEq K] (st : CachedStorage K V σ) (key : K) :
    Except PyErr (Option (List V) × CachedStorage K V σ) :=
  match dictLookup st.cache key with
  | some vs => .ok (some vs, st)
  | none =>
      match st.inner.get st.innerState key with
      | none => .ok (none, st)
      | some value =>
          match st.check_cache_limit with
          | .error e => .error e
          | .ok st2 => .ok (some value, { st2 with cache := dictInsert st2.cache key value })

/-- `CachedStorage.close`: write every dirty key's cached sequence to the
inner storage via `put_all`, close the inner storage, clear the dirty set. -/
def CachedStorage.close [DecidableEq K] (st : CachedStorage K V σ) : CachedStorage K V σ :=
  let inner' := st.cache_dirty.foldl
    (fun s k => st.inner.put_all s k ((dictLookup st.cache k).getD [])) st.innerState
  { st with innerState := st.inner.close inner', cache_dirty := [] }

/-- `CachedStorage.__contains__`. -/
def CachedStorage.containsKey [DecidableEq K] (st : CachedStorage K V σ) (key : K) : Bool :=
  (dictLookup st.cache key).isSome || st.inner.containsKey st.innerState key

/-- A minimal conforming inner storage over an association-list state, used to
drive `CachedStorage` at concrete inputs. -/
def listInner : InnerStorage ℕ ℕ (List (ℕ × List ℕ)) where
  containsKey := fun s k => (dictLookup s k).isSome
  get := dictLookup
  put_all := fun s k vs => dictInsert s k vs
  close := id

/-- A `CachedStorage` with capacity 1 over the list-backed inner storage. -/
def c2Start : CachedStorage ℕ ℕ (List (ℕ × List ℕ)) := ⟨listInner, [], [], 1, []⟩

/-- Three puts under distinct keys: the third overflows the capacity-1 cache
and evicts the earliest-inserted key `0`, which is dirty. -/
def c2Run : Except PyErr (CachedStorage ℕ ℕ (List (ℕ × List ℕ))) :=
  c2Start.put 0 10 >>= fun s => s.put 1 11 >>= fun s => s.put 2 12

/-- `DiskDict` (`storage.py` variant: read-modify-overwrite).  The filesystem
is modelled as an association list from file path to the list of records the
file's JSON lines decode to (the JSON round-trip is the identity on the
model's values); `sha256(str(key)).hexdigest()` is computed by an external
library and is embedded as the `digest` field. -/
structure DiskDict (K V : Type) where
  root_dir : String
  digest : K → String
  fs : List (String × List V)

/-- `DiskDict.get_file_path`: `root/<hex[:2]>/<hex[2:4]>/<hex>.jsonl`. -/
def DiskDict.file_path (d : DiskDict K V) (key : K) : String :=
  let h := d.digest key
  d.root_dir ++ "/" ++ h.take 2 ++ "/" ++ (h.drop 2).take 2 ++ "/" ++ h ++ ".jsonl"

/-- `DiskDict.put`: rewrite the key's file so it holds exactly `value_list`. -/
def DiskDict.put (d : DiskDict K V) (key : K) (value_list : List V) : DiskDict K V :=
  { d with fs := dictInsert d.fs (d.file_path key) value_list }

/-- `DiskDict.get`: the complete decoded sequence, or `None` if the key's file
does not exist. -/
def DiskDict.get (d : DiskDict K V) (key : K) : Option (List V) :=
  dictLookup d.fs (d.file_path key)

/-- `JSONLStorage` as the inner storage wrapped by `CachedStorage`: `get` and
`put_all` delegate to `DiskDict`, `close` is a no-op. -/
def jsonlStorage (K V : Type) : InnerStorage K V (DiskDict K V) where
  containsKey := fun d k => (DiskDict.get d k).isSome
  get := DiskDict.get
  put_all := fun d k vs => d.put k vs
  close := id

/-- The stored object `{"x": n}`, modelled as a field list. -/
def jx (n : ℤ) : List (String × ℤ) := [("x", n)]

/-- A fresh default-capacity `CachedStorage` over a `JSONLStorage` with the
given on-disk state. -/
def c6Fresh (d : DiskDict String (List (String × ℤ))) :
    CachedStorage String (List (String × ℤ)) (DiskDict String (List (String × ℤ))) :=
  ⟨jsonlStorage _ _, d, [], 100000, []⟩

/-- The empty on-disk root (the digest function stands in for sha256; any
injective choice works, and only one key is used here). -/
def c6Disk0 : DiskDict String (List (String × ℤ)) := ⟨"serialized_data", fun s => s, []⟩

/-- The round trip of the claim: two puts under `key1`, `close`, then a `get`
through a fresh `CachedStorage` over the same root. -/
def c6Run : Except PyErr (Option (List (List (String × ℤ)))) :=
  (c6Fresh c6Disk0).put "key1" (jx 1) >>= fun s1 =>
  s1.put "key1" (jx 2) >>= fun s2 =>
  (c6Fresh (s2.close).innerState).get "key1" >>= fun r => .ok r.1

/-! ### Association-list lemmas -/

theorem dictLookup_eq_none_iff [DecidableEq K] :
    ∀ (l : List (K × A)) (k : K), dictLookup l k = none ↔ k ∉ l.map Prod.fst := by
  intro l k
  induction l with
  | nil => simp [dictLookup]
  | cons e rest ih =>
      obtain ⟨k', a⟩ := e
      by_cases h : k' = k <;> simp [dictLookup, h, ih, Ne.symm]

theorem dictInsert_of_not_mem [DecidableEq K] (k : K) (a : A) :
    ∀ (l : List (K × A)), k ∉ l.map Prod.fst → dictInsert l k a = l ++ [(k, a)] := by
  intro l
  induction l with
  | nil => intro _; rfl
  | cons e rest ih =>
      intro h
      simp only [List.map_cons, List.mem_cons] at h
      push_neg at h
      simp [dictInsert, Ne.symm h.1, ih h.2]

theorem imsPut_lookup_ne [DecidableEq K] (key : K) (v : V) (k : K) (h : k ≠ key) :
    ∀ (l : List (K × List V)), dictLookup (imsPut l key v) k = dictLookup l k := by
  intro l
  induction l with
  | nil => simp [imsPut, dictLookup, Ne.symm h]
  | cons e rest ih =>
      obtain ⟨k', vs⟩ := e
      by_cases h1 : k' = key
      · subst h1; simp [imsPut, dictLookup, Ne.symm h]
      · by_cases h2 : k' = k
        · subst h2; simp [imsPut, dictLookup, h, h1]
        · simp [imsPut, dictLookup, h1, h2, ih]

/-! ### Claims C5, C9, C10, C2, C6 -/

/-- C5: `Matcher.components` evaluates the `must` gate, then the `either`
gate, then the `sequential` gates in listed order, and any failing gate makes
the call return exactly `(0.0, {})`: a `must` mismatch, a fully mismatching
non-empty `either`, or a `sequential` gate returning a falsy value each force
the zero score with an empty components mapping, so no `should` similarity
contributes to the result. -/
theorem c5_gate_short_circuit [DecidableEq V] [CommRing R] (pow : R → W → R)
    (m : Matcher V R W) (r1 r2 : String → V)
    (h : (m.must ≠ [] ∧ ∃ k ∈ m.must, r1 k ≠ r2 k) ∨
         (m.either ≠ [] ∧ ∀ k ∈ m.either, r1 k ≠ r2 k) ∨
         (∃ p ∈ m.sequential, p.2 (r1 p.1) (r2 p.1) = false)) :
    m.components pow r1 r2 = (0, []) := by
  unfold Matcher.components
  split_ifs with h1 h2 h3 <;> try rfl
  rcases h with ⟨hne, k, hk, hkne⟩ | ⟨hne, hall⟩ | ⟨p, hp, hpf⟩
  · refine absurd ⟨hne, ?_⟩ h1
    simp only [List.all_eq_true, decide_eq_true_eq]
    push_neg
    exact ⟨k, hk, hkne⟩
  · refine absurd ⟨hne, ?_⟩ h2
    simp only [List.any_eq_true, decide_eq_true_eq]
    push_neg
    exact hall
  · have hall := List.all_eq_true.mp h3 p hp
    simp [hpf] at hall

/-- Concrete matcher for the C5 witness: one `must` field that mismatches and
one `should` rule that would contribute if consulted. -/
def cm5 : Matcher ℕ ℤ ℕ where
  stone_geary := 0
  must := ["m"]
  either := []
  sequential := []
  should := [("s", fun _ _ => 1, 1)]

theorem c5_gate_short_circuit_witness :
    (cm5.must ≠ [] ∧ ∃ k ∈ cm5.must, (fun _ => (0:ℕ)) k ≠ (fun _ => (1:ℕ)) k) ∧
    cm5.components (fun (a : ℤ) (n : ℕ) => a ^ n) (fun _ => 0) (fun _ => 1) = (0, []) :=
  ⟨by decide, c5_gate_short_circuit _ cm5 _ _ (Or.inl (by decide))⟩

/-- C9: `Matcher.__init__` succeeds exactly when every `sequential` entry's
second element is callable; a non-callable entry raises `TypeError` during
construction, before `components` can ever be called (the failure happens
inside `__init__`, so no matcher object exists afterwards). -/
theorem c9_sequential_callable_check [One W] (must either : List String)
    (sequential : List (String × GateSpec V))
    (should : List (String × (V → V → R) × Option W)) (sg : R) :
    exceptOk (Matcher.init must either sequential should sg)
      = sequential.all (fun e => e.2.isCallable) := by
  unfold Matcher.init
  split_ifs with h
  · simp [exceptOk, h]
  · simp only [exceptOk]
    exact (Bool.eq_false_iff.mpr h).symm

/-- Lookup of a key untouched by a fold of puts stays `none`. -/
theorem foldl_imsPut_lookup_none [DecidableEq K] (k : K) :
    ∀ (ops : List (K × V)) (st : InMemoryStorage K V), k ∉ ops.map Prod.fst →
      dictLookup st.data k = none →
      dictLookup ((ops.foldl (fun s p => s.put p.1 p.2) st).data) k = none := by
  intro ops
  induction ops with
  | nil => intro st _ hst; exact hst
  | cons op rest ih =>
      intro st h hst
      simp only [List.map_cons, List.mem_cons] at h
      push_neg at h
      simp only [List.foldl_cons]
      exact ih _ h.2 (by rw [InMemoryStorage.put, imsPut_lookup_ne op.1 op.2 k h.1]; exact hst)

/-- C10: on an `InMemoryStorage` built by any sequence of puts that never
mentions `k`, `get k` returns the absent marker `None` (not an empty
sequence); moreover `get` hands back the store unchanged — `dict.get` does
not install a `defaultdict` default — so the key set, the key count reported
by `len`, and every key's stored sequence (`k'` arbitrary) are the same after
the get as before it. -/
theorem c10_get_absent_frame [DecidableEq K] (ops : List (K × V)) (k k' : K)
    (h : k ∉ ops.map Prod.fst) :
    ((ops.foldl (fun s p => s.put p.1 p.2) (InMemoryStorage.empty : InMemoryStorage K V)).get k).1
        = none ∧
    ((ops.foldl (fun s p => s.put p.1 p.2) (InMemoryStorage.empty : InMemoryStorage K V)).get k).2
        = ops.foldl (fun s p => s.put p.1 p.2) (InMemoryStorage.empty : InMemoryStorage K V) ∧
    ((ops.foldl (fun s p => s.put p.1 p.2) (InMemoryStorage.empty : InMemoryStorage K V)).get
        k).2.len
        = (ops.foldl (fun s p => s.put p.1 p.2) (InMemoryStorage.empty : InMemoryStorage K V)).len ∧
    ((ops.foldl (fun s p => s.put p.1 p.2) (InMemoryStorage.empty : InMemoryStorage K V)).get
        k).2.containsKey k'
        = (ops.foldl (fun s p => s.put p.1 p.2)
            (InMemoryStorage.empty : InMemoryStorage K V)).containsKey k' ∧
    dictLookup ((ops.foldl (fun s p => s.put p.1 p.2)
        (InMemoryStorage.empty : InMemoryStorage K V)).get k).2.data k'
        = dictLookup (ops.foldl (fun s p => s.put p.1 p.2)
            (InMemoryStorage.empty : InMemoryStorage K V)).data k' :=
  ⟨foldl_imsPut_lookup_none k ops InMemoryStorage.empty h rfl, rfl, rfl, rfl, rfl⟩

theorem c10_get_absent_frame_witness :
    ((2 : ℕ) ∉ [((1 : ℕ), (10 : ℕ))].map Prod.fst) ∧
    (([((1 : ℕ), (10 : ℕ))].foldl (fun s p => s.put p.1 p.2)
        (InMemoryStorage.empty : InMemoryStorage ℕ ℕ)).get 2).1 = none :=
  ⟨by decide, (c10_get_absent_frame [(1, 10)] 2 1 (by decide)).1⟩

/-- C2: evaluating the code at the failing input.  On a `CachedStorage` of
capacity 1 over a conforming inner storage, the third `put` (all keys
distinct) overflows the cache and evicts the dirty, earliest-inserted key
`0`; instead of flushing it to the wrapped inner storage via `put_all`, the
source calls `super().put(...)` — `AbstractStorage.put` — which raises
`NotImplementedError`, so the eviction never completes and nothing reaches
the inner storage. -/
theorem c2_dirty_eviction_raises : c2Run = .error .notImplementedError := rfl

/-- C6: `CachedStorage` round trip over an on-disk `JSONLStorage`:
`put("key1", {"x": 1})`, `put("key1", {"x": 2})`, `close()`, then a fresh
`CachedStorage` over the same on-disk root answers `get("key1")` with exactly
`[{"x": 1}, {"x": 2}]` in insertion order. -/
theorem c6_round_trip : c6Run = .ok (some [jx 1, jx 2]) := rfl

/-- Bucket with two blocking keys whose first is absent from storage while
the second holds a positively scoring record. -/
def cb1 : Bucket ℕ ℕ ℕ ℚ where
  components := fun _ _ => (1, [])
  analyzer := id
  indexer := fun _ => [0, 1]
  storage := fun k => if k = 1 then some [7] else none
  topn := TopN.mk 3 [] 0 (fun c _ => c)

/-- C1: evaluating the code at the failing input.  The first key `0` is
absent from storage, and `Bucket.find` runs the `break` on line 112 of
`bucketlist.py`, so the present second key `1` — holding record `7`, which
scores `1 > 0` against the query — is never fetched and the result is empty.
Under the claim (and the source's own "compare against all indexes" comment
and the `either` docstring), key `0` would be skipped and `(7, 1)`
returned. -/
theorem c1_break_on_absent_key :
    cb1.find 9 = [] ∧ cb1.storage 1 = some [7] ∧ (cb1.components 7 9).1 > 0 :=
  ⟨rfl, rfl, by norm_num [cb1]⟩

/-- C4 counterexample: `cb4` has TopN capacity 2, its stored record `2`
scores `1 > 0.9999` against the query, and the lower positive scorer `1`
(score `1/2`) is scanned first; `find` returns both retained candidates, so
more than one result comes back even though a perfect match was found. -/
theorem c4_two_results_despite_perfect_match :
    cb4.topn.n = 2 ∧ (cb4.components 2 0).1 > 9999 / 10000 ∧
    cb4.find 0 = [(1, 1/2), (2, 1)] := by
  refine ⟨rfl, by norm_num [cb4], ?_⟩
  norm_num [Bucket.find, scanKeys, scanList, cb4, TopN.put, TopN.clear, TopN.get,
    TopN.pairs, TopN.add, dictLookup, dictInsert, TopN.lowest?, TopN.getLowest, max_def]

/-- A scanned segment of zero-scoring candidates feeds nothing into TopN and
leaves the inner scan unchanged. -/
theorem scanList_zero_segment [DecidableEq G] [DecidableEq V] [LinearOrderedField R]
    (cmp : V → V → R × List (String × R)) (q : V) :
    ∀ (zs l : List V) (t : TopN G V R) (best : R),
      (∀ z ∈ zs, (cmp z q).1 = 0) → ¬ best > 9999 / 10000 →
      scanList cmp q (zs ++ l) t best = scanList cmp q l t best := by
  intro zs
  induction zs with
  | nil => intro l t best _ _; rfl
  | cons z rest ih =>
      intro l t best hz hb
      have h0 : (cmp z q).1 = 0 := hz z (List.mem_cons_self _ _)
      rw [List.cons_append, scanList]
      simp only [h0, ne_eq, not_true_eq_false, if_false, hb]
      exact ih l t best (fun w hw => hz w (List.mem_cons_of_mem _ hw)) hb

/-- A perfectly scoring candidate at the head of the scan is fed into TopN
and stops the scan at once: the remaining candidates of the sequence are
never scored. -/
theorem scanList_perfect_first [DecidableEq G] [DecidableEq V] [LinearOrderedField R]
    (cmp : V → V → R × List (String × R)) (q : V) (p : V) (l : List V)
    (t : TopN G V R) (hp : (cmp p q).1 > 9999 / 10000) :
    scanList cmp q (p :: l) t 0 = (t.put p (cmp p q).1, (cmp p q).1) := by
  have hθ : (0 : R) < 9999 / 10000 := by norm_num
  have hs : (cmp p q).1 ≠ 0 := ne_of_gt (lt_trans hθ hp)
  rw [scanList]
  simp only [hs, ne_eq, not_false_eq_true, if_true, max_eq_left (le_of_lt (lt_trans hθ hp)),
    if_pos hp]

/-- A `put` into a TopN with empty data and positive capacity retains exactly
that candidate. -/
theorem TopN.put_on_empty [DecidableEq K] [DecidableEq V] [LinearOrder S]
    (t : TopN K V S) (hd : t.data = []) (hn : 1 ≤ t.n) (v : V) (s : S) :
    (t.put v s).get = [(v, s)] := by
  have h0 : 0 < t.n := hn
  unfold TopN.put
  simp [hd, dictLookup, TopN.add, TopN.pairs, TopN.get, dictInsert, h0]

/-- C4 (amended): once the best score exceeds `0.9999`, scanning stops — the
rest of the current key's sequence (`restItems`) and all further keys
(`restKeys`) are never consulted — and whenever every candidate scanned
before the perfect match scored `0` (so nothing else was fed into TopN),
`find` returns exactly the perfect match, for any capacity `n ≥ 1`. -/
theorem c4_single_result_when_perfect_first [DecidableEq G] [DecidableEq V]
    [LinearOrderedField R] (b : Bucket K G V R) (q : V) (k : K) (restKeys : List K)
    (zs : List V) (p : V) (restItems : List V)
    (hidx : b.indexer (b.analyzer q) = k :: restKeys)
    (hst : b.storage k = some (zs ++ p :: restItems))
    (hzs : ∀ z ∈ zs, (b.components z (b.analyzer q)).1 = 0)
    (hp : (b.components p (b.analyzer q)).1 > 9999 / 10000)
    (hn : 1 ≤ b.topn.n) :
    b.find q = [(p, (b.components p (b.analyzer q)).1)] := by
  simp only [Bucket.find]
  rw [hidx, scanKeys, hst]
  simp only
  rw [scanList_zero_segment b.components (b.analyzer q) zs (p :: restItems) b.topn.clear 0 hzs
      (by norm_num),
    scanList_perfect_first b.components (b.analyzer q) p restItems b.topn.clear hp]
  rw [if_pos hp]
  exact TopN.put_on_empty b.topn.clear rfl hn p _

/-- Bucket for the C4 witness: the zero scorer `1` comes first, then the
perfect scorer `2`. -/
def cb4w : Bucket ℕ ℕ ℕ ℚ where
  components := fun v _ => (if v = 1 then 0 else 1, [])
  analyzer := id
  indexer := fun _ => [0]
  storage := fun k => if k = 0 then some [1, 2] else none
  topn := TopN.mk 2 [] 0 (fun c _ => c)

theorem c4_single_result_when_perfect_first_witness :
    (∀ z ∈ [(1 : ℕ)], (cb4w.components z (cb4w.analyzer 0)).1 = 0) ∧
    (cb4w.components 2 (cb4w.analyzer 0)).1 > 9999 / 10000 ∧
    1 ≤ cb4w.topn.n ∧
    cb4w.find 0 = [(2, (cb4w.components 2 (cb4w.analyzer 0)).1)] :=
  ⟨by norm_num [cb4w], by norm_num [cb4w], by norm_num [cb4w],
    c4_single_result_when_perfect_first cb4w 0 0 [] [1] 2 [] rfl rfl
      (by norm_num [cb4w]) (by norm_num [cb4w]) (by norm_num [cb4w])⟩

/-! ### Claims C7 and C8 -/

/-- When every similarity returns 1 on the diagonal, every `should` factor
collapses: `(sg + (1 - sg) * 1) ** w = 1 ** w = 1`, so the score is
untouched. -/
theorem shouldAux_score_of_sim_one [CommRing R] (pow : R → W → R)
    (hpow : ∀ w, pow 1 w = 1) (sg : R) (r : String → V) :
    ∀ (sh : List (String × (V → V → R) × W)), (∀ e ∈ sh, ∀ x, e.2.1 x x = 1) →
      ∀ (i : ℕ) (score : R) (comp : List (String × R)),
        (shouldAux pow sg r r sh i score comp).1 = score := by
  intro sh
  induction sh with
  | nil => intro _ i score comp; rfl
  | cons e rest ih =>
      intro hsim i score comp
      obtain ⟨k, sim, w⟩ := e
      have h1 : sim (r k) (r k) = 1 := hsim (k, sim, w) (List.mem_cons_self _ _) (r k)
      rw [shouldAux]
      simp only [h1]
      have hbase : sg + (1 - sg) * 1 = 1 := by ring
      rw [hbase, hpow, mul_one]
      exact ih (fun e he x => hsim e (List.mem_cons_of_mem _ he) x) (i + 1) score _

/-- C7: a matcher with empty `must`, `either` and `sequential` rule lists,
arbitrary real per-rule weights and any `stone_geary` in `[0, 1)` scores a
record against itself at exactly `1.0`, provided each `should` similarity
returns `1.0` on identical inputs.  The float `**` is modelled by `Real.rpow`;
the collapse `1 ** w = 1` holds for every real weight. -/
theorem c7_self_score_one [DecidableEq V] (m : Matcher V ℝ ℝ) (r : String → V)
    (hmust : m.must = []) (heither : m.either = []) (hseq : m.sequential = [])
    (_hsg : 0 ≤ m.stone_geary ∧ m.stone_geary < 1)
    (hsim : ∀ e ∈ m.should, ∀ x, e.2.1 x x = 1) :
    (m.components (fun a w => a ^ w) r r).1 = 1 := by
  unfold Matcher.components
  rw [hmust, heither, hseq]
  simp only [ne_eq, not_true_eq_false, false_and, if_false, List.all_nil,
    not_true_eq_false, List.any_nil, ite_false]
  exact shouldAux_score_of_sim_one _ (fun w => Real.one_rpow w) _ r m.should hsim 0 1 []

theorem c7_self_score_one_witness :
    ((0 : ℝ) ≤ 1/4 ∧ (1/4 : ℝ) < 1) ∧
    ((Matcher.mk (1/4) [] [] [] [("a", fun _ _ => 1, 5/2)] : Matcher ℤ ℝ ℝ).components
        (fun a w => a ^ w) (fun _ => 0) (fun _ => 0)).1 = 1 :=
  ⟨by norm_num,
    c7_self_score_one _ (fun _ => 0) rfl rfl rfl (by norm_num)
      (by intro e he x
          have he' : e = ("a", fun _ _ => (1 : ℝ), (5/2 : ℝ)) := List.mem_singleton.mp he
          subst he'
          rfl)⟩

/-- C8 counterexample: `cm8` has 11 `should` rules with all gates passing,
yet its components mapping holds only 10 entries: rule 0 (field `a1`) and
rule 10 (field `a`) share the label `a10`, so the later rule's recorded
similarity (9) overwrites the earlier one's (7) — the label is not distinct
for every pair of distinct `should` rules. -/
theorem c8_label_collision :
    cm8.should.length = 11 ∧
    ¬ (shouldLabels cm8.should 0).Nodup ∧
    ((cm8.components (fun a n => a ^ n) (fun _ => 0) (fun _ => 0)).2).length = 10 ∧
    dictLookup ((cm8.components (fun a n => a ^ n) (fun _ => 0) (fun _ => 0)).2) "a10"
      = some 9 :=
  ⟨rfl, by decide, by decide, by decide⟩

/-- While its labels stay fresh, the `should` loop only appends to the
components dict. -/
theorem shouldAux_comp_of_nodup [CommRing R] (pow : R → W → R) (sg : R)
    (r1 r2 : String → V) :
    ∀ (sh : List (String × (V → V → R) × W)) (i : ℕ) (score : R)
      (comp : List (String × R)),
      (shouldLabels sh i).Nodup →
      (∀ lab ∈ shouldLabels sh i, lab ∉ comp.map Prod.fst) →
      (shouldAux pow sg r1 r2 sh i score comp).2 = comp ++ shouldEntries r1 r2 sh i := by
  intro sh
  induction sh with
  | nil => intro i score comp _ _; simp [shouldAux, shouldEntries]
  | cons e rest ih =>
      intro i score comp hnd hdisj
      obtain ⟨k, sim, w⟩ := e
      rw [shouldLabels] at hnd hdisj
      rw [shouldAux, shouldEntries]
      rw [List.nodup_cons] at hnd
      have hfresh : (k ++ toString i) ∉ comp.map Prod.fst :=
        hdisj _ (List.mem_cons_self _ _)
      rw [dictInsert_of_not_mem _ _ comp hfresh]
      rw [ih (i + 1) _ _ hnd.2 ?_]
      · simp
      · intro lab hlab
        simp only [List.map_append, List.mem_append, List.map_cons, List.map_nil,
          List.mem_singleton]
        push_neg
        exact ⟨hdisj lab (List.mem_cons_of_mem _ hlab),
          fun hcon => hnd.1 (hcon ▸ hlab)⟩

/-- C8 (amended): whenever all gates pass and the labels
`field ++ str(position)` of the `should` rules are pairwise distinct — in
particular always when rules reuse a single field name, positions being
distinct — the components mapping contains exactly one entry per `should`
rule, in rule order, holding that rule's raw similarity.  Labels of rules
over distinct fields can coincide (one field name extending another, see the
counterexample), and exactly then a later rule overwrites an earlier one. -/
theorem c8_one_entry_per_rule [DecidableEq V] [CommRing R] (pow : R → W → R)
    (m : Matcher V R W) (r1 r2 : String → V)
    (hg : gatesPass m r1 r2) (hlab : (shouldLabels m.should 0).Nodup) :
    (m.components pow r1 r2).2 = shouldEntries r1 r2 m.should 0 := by
  obtain ⟨hm, he, hs⟩ := hg
  have hA : ¬(m.must ≠ [] ∧ ¬(m.must.all fun k => decide (r1 k = r2 k)) = true) := by
    rcases hm with hm | hm
    · simp [hm]
    · intro hc
      exact hc.2 (by simp only [List.all_eq_true, decide_eq_true_eq]; exact hm)
  have hB : ¬(m.either ≠ [] ∧ ¬(m.either.any fun k => decide (r1 k = r2 k)) = true) := by
    rcases he with he | ⟨k, hk, hke⟩
    · simp [he]
    · intro hc
      exact hc.2 (by simp only [List.any_eq_true, decide_eq_true_eq]; exact ⟨k, hk, hke⟩)
  have hC : ¬¬(m.sequential.all fun p => p.2 (r1 p.1) (r2 p.1)) = true := by
    intro hc
    exact hc (List.all_eq_true.mpr hs)
  unfold Matcher.components
  rw [if_neg hA, if_neg hB, if_neg hC]
  exact shouldAux_comp_of_nodup pow m.stone_geary r1 r2 m.should 0 1 [] hlab (by simp)

/-- Matcher for the C8 witness: two `should` rules over distinct digit-free
fields, with distinct labels `a0` and `b1`. -/
def cm8w : Matcher ℕ ℤ ℕ where
  stone_geary := 0
  must := []
  either := []
  sequential := []
  should := [("a", fun _ _ => 3, 1), ("b", fun x y => (x : ℤ) + y, 2)]

theorem c8_one_entry_per_rule_witness :
    gatesPass cm8w (fun _ => 5) (fun _ => 5) ∧
    (shouldLabels cm8w.should 0).Nodup ∧
    (cm8w.components (fun a n => a ^ n) (fun _ => 5) (fun _ => 5)).2
      = shouldEntries (fun _ => 5) (fun _ => 5) cm8w.should 0 :=
  ⟨⟨Or.inl rfl, Or.inl rfl, by simp [cm8w]⟩, by decide,
    c8_one_entry_per_rule _ cm8w _ _ ⟨Or.inl rfl, Or.inl rfl, by simp [cm8w]⟩ (by decide)⟩

/-! ### Claim C3 -/

theorem dictLookup_some_mem_keys [DecidableEq K] {l : List (K × A)} {k : K} {a : A}
    (h : dictLookup l k = some a) : k ∈ l.map Prod.fst := by
  by_contra hc
  rw [(dictLookup_eq_none_iff l k).mpr hc] at h
  exact Option.noConfusion h

theorem dictInsert_keys_of_mem [DecidableEq K] (k : K) (a : A) :
    ∀ l : List (K × A), k ∈ l.map Prod.fst →
      (dictInsert l k a).map Prod.fst = l.map Prod.fst := by
  intro l
  induction l with
  | nil => simp
  | cons e rest ih =>
      intro h
      obtain ⟨k', b⟩ := e
      by_cases hk : k' = k
      · subst hk; simp [dictInsert]
      · simp only [List.map_cons, List.mem_cons] at h
        rcases h with h | h
        · exact absurd h.symm hk
        · simp [dictInsert, hk, ih h]

theorem mem_dictInsert [DecidableEq K] (k : K) (a : A) :
    ∀ (l : List (K × A)) (e : K × A), e ∈ dictInsert l k a → e ∈ l ∨ e = (k, a) := by
  intro l
  induction l with
  | nil =>
      intro e he
      simp only [dictInsert, List.mem_singleton] at he
      exact Or.inr he
  | cons f rest ih =>
      intro e he
      obtain ⟨k', b⟩ := f
      by_cases hk : k' = k
      · subst hk
        simp only [dictInsert, if_pos rfl] at he
        rcases List.mem_cons.mp he with he | he
        · exact Or.inr he
        · exact Or.inl (List.mem_cons_of_mem _ he)
      · simp only [dictInsert, if_neg hk] at he
        rcases List.mem_cons.mp he with he | he
        · exact Or.inl (he ▸ List.mem_cons_self _ _)
        · rcases ih e he with h | h
          · exact Or.inl (List.mem_cons_of_mem _ h)
          · exact Or.inr h

/-- Replacing the value stored under a present key keeps the value list
duplicate-free, provided the incoming value clashes with no other entry. -/
theorem dictInsert_pairs_nodup [DecidableEq K] (k : K) (a : A) :
    ∀ l : List (K × A), (l.map Prod.fst).Nodup → k ∈ l.map Prod.fst →
      (∀ e ∈ l, e.1 ≠ k → e.2 ≠ a) → (l.map Prod.snd).Nodup →
      ((dictInsert l k a).map Prod.snd).Nodup := by
  intro l
  induction l with
  | nil => intro _ h; simp at h
  | cons f rest ih =>
      intro hkeys hmem hne hpairs
      obtain ⟨k', b⟩ := f
      rw [List.map_cons, List.nodup_cons] at hkeys hpairs
      by_cases hk : k' = k
      · subst hk
        rw [dictInsert, if_pos rfl, List.map_cons, List.nodup_cons]
        refine ⟨?_, hpairs.2⟩
        intro hc
        obtain ⟨e, he, hesnd⟩ := List.mem_map.mp hc
        have hek : e.1 ≠ k' := fun h => hkeys.1 (h ▸ List.mem_map.mpr ⟨e, he, rfl⟩)
        exact hne e (List.mem_cons_of_mem _ he) hek hesnd
      · rw [dictInsert, if_neg hk, List.map_cons, List.nodup_cons]
        have hmem' : k ∈ rest.map Prod.fst := by
          rcases List.mem_cons.mp hmem with h | h
          · exact absurd h.symm hk
          · exact h
        refine ⟨?_, ih hkeys.2 hmem' (fun e he h1 => hne e (List.mem_cons_of_mem _ he) h1)
          hpairs.2⟩
        intro hc
        obtain ⟨e, he, hesnd⟩ := List.mem_map.mp hc
        rcases mem_dictInsert k a rest e he with h | h
        · exact hpairs.1 (hesnd ▸ List.mem_map.mpr ⟨e, h, rfl⟩)
        · refine hne (k', b) (List.mem_cons_self _ _) hk ?_
          rw [h] at hesnd
          exact hesnd ▸ rfl

theorem dictErase_sublist [DecidableEq K] (k : K) :
    ∀ l : List (K × A), List.Sublist (dictErase l k) l := by
  intro l
  induction l with
  | nil => simp [dictErase]
  | cons e rest ih =>
      obtain ⟨k', b⟩ := e
      by_cases hk : k' = k
      · rw [dictErase, if_pos hk]
        exact List.sublist_cons_self _ _
      · rw [dictErase, if_neg hk]
        exact ih.cons₂ _

/-- The invariant `TopN.put` maintains under both grouping disciplines of the
source: the group keys of the retained entries are duplicate-free, the
retained `(value, score)` pairs are duplicate-free, a pure `group_by` keys
every entry by its value's group, and the fresh default keys every entry by
the counter of some earlier `put` call. -/
def TopNInv (t : TopN K V S) : Prop :=
  t.keys.Nodup ∧ t.pairs.Nodup ∧
  (pureGroup t.group_by → ∀ e ∈ t.data, e.1 = t.group_by 0 e.2.1) ∧
  (freshGroup t.group_by → ∀ k ∈ t.keys, ∃ c, c < t.counter ∧ ∀ w, t.group_by c w = k)

theorem TopNInv_counter_succ [DecidableEq K] (t : TopN K V S) (hI : TopNInv t) :
    TopNInv { t with counter := t.counter + 1 } := by
  obtain ⟨h1, h2, h3, h4⟩ := hI
  refine ⟨h1, h2, h3, fun hf k hk => ?_⟩
  obtain ⟨c, hc, hcall⟩ := h4 hf k hk
  exact ⟨c, Nat.lt_succ_of_lt hc, hcall⟩

/-- `TopN._add` on an absent key either rejects a duplicate pair or appends
the new entry. -/
theorem TopN.add_eq_cases [DecidableEq K] [DecidableEq V] [DecidableEq S]
    (t : TopN K V S) (key : K) (v : V) (s : S) (hnot : key ∉ t.keys) :
    ((v, s) ∈ t.pairs ∧ t.add key v s = t) ∨
    ((v, s) ∉ t.pairs ∧ t.add key v s = { t with data := t.data ++ [(key, (v, s))] }) := by
  unfold TopN.add
  split_ifs with h
  · exact Or.inl ⟨h, rfl⟩
  · refine Or.inr ⟨h, ?_⟩
    rw [dictInsert_of_not_mem _ _ _ hnot]

/-- Appending a fresh-keyed, fresh-paired entry preserves the invariant. -/
theorem TopNInv_append_entry [DecidableEq K] (t : TopN K V S) (d : List (K × V × S))
    (v : V) (s : S)
    (hsub : ∀ e ∈ d, e ∈ t.data)
    (hknd : (d.map Prod.fst).Nodup) (hpnd : (d.map Prod.snd).Nodup)
    (hknot : t.group_by t.counter v ∉ d.map Prod.fst)
    (hpnot : (v, s) ∉ d.map Prod.snd)
    (hI3 : pureGroup t.group_by → ∀ e ∈ t.data, e.1 = t.group_by 0 e.2.1)
    (hI4 : freshGroup t.group_by →
      ∀ k ∈ t.keys, ∃ c, c < t.counter ∧ ∀ w, t.group_by c w = k) :
    TopNInv { t with data := d ++ [(t.group_by t.counter v, (v, s))],
                     counter := t.counter + 1 } := by
  refine ⟨?_, ?_, ?_, ?_⟩
  · show ((d ++ [(t.group_by t.counter v, (v, s))]).map Prod.fst).Nodup
    simp [List.nodup_append, hknd, hknot]
  · show ((d ++ [(t.group_by t.counter v, (v, s))]).map Prod.snd).Nodup
    simp [List.nodup_append, hpnd, hpnot]
  · intro hp e he
    rcases List.mem_append.mp he with he | he
    · exact hI3 hp e (hsub e he)
    · rw [List.mem_singleton] at he
      subst he
      exact hp t.counter 0 v
  · intro hf k hk
    have hk2 : k ∈ (d ++ [(t.group_by t.counter v, (v, s))]).map Prod.fst := hk
    rw [List.map_append] at hk2
    show ∃ c, c < t.counter + 1 ∧ ∀ w, t.group_by c w = k
    rcases List.mem_append.mp hk2 with hk' | hk'
    · have hkt : k ∈ t.keys := by
        obtain ⟨e, he, hek⟩ := List.mem_map.mp hk'
        exact hek ▸ List.mem_map.mpr ⟨e, hsub e he, rfl⟩
      obtain ⟨c, hc, hcall⟩ := hI4 hf k hkt
      exact ⟨c, Nat.lt_succ_of_lt hc, hcall⟩
    · simp only [List.map_cons, List.map_nil, List.mem_singleton] at hk'
      subst hk'
      exact ⟨t.counter, Nat.lt_succ_self _, fun w => hf.1 t.counter w v⟩

/-- Pure grouping: replacing a group's entry in place preserves the
invariant. -/
theorem TopNInv_replace [DecidableEq K] (t : TopN K V S) (v : V) (s : S)
    (hp : pureGroup t.group_by) (hI : TopNInv t)
    (hmem : t.group_by t.counter v ∈ t.keys) :
    TopNInv { t with data := dictInsert t.data (t.group_by t.counter v) (v, s),
                     counter := t.counter + 1 } := by
  obtain ⟨h1, h2, h3, h4⟩ := hI
  have hkey0 : t.group_by t.counter v = t.group_by 0 v := hp t.counter 0 v
  have hne : ∀ e ∈ t.data, e.1 ≠ t.group_by t.counter v → e.2 ≠ (v, s) := by
    intro e he hek hesnd
    refine hek ?_
    rw [h3 hp e he, hesnd]
    exact hp 0 t.counter v
  refine ⟨?_, ?_, ?_, ?_⟩
  · show ((dictInsert t.data (t.group_by t.counter v) (v, s)).map Prod.fst).Nodup
    rw [dictInsert_keys_of_mem _ _ _ hmem]
    exact h1
  · exact dictInsert_pairs_nodup _ _ t.data h1 hmem hne h2
  · intro _ e he
    rcases mem_dictInsert _ _ t.data e he with h | h
    · exact h3 hp e h
    · subst h
      exact hkey0
  · intro hf
    exact absurd (hf.2 0 1 v v (hp 0 1 v)) Nat.zero_ne_one

/-- Evicting an entry and bumping the counter preserves the invariant. -/
theorem TopNInv_erase_succ [DecidableEq K] (t : TopN K V S) (lk : K) (hI : TopNInv t) :
    TopNInv { t with data := dictErase t.data lk, counter := t.counter + 1 } := by
  obtain ⟨h1, h2, h3, h4⟩ := hI
  have hsubl := dictErase_sublist lk t.data
  refine ⟨h1.sublist (hsubl.map Prod.fst), h2.sublist (hsubl.map Prod.snd), ?_, ?_⟩
  · intro hp e he
    exact h3 hp e (hsubl.subset he)
  · intro hf k hk
    have hkt : k ∈ t.keys := (hsubl.map Prod.fst).subset hk
    obtain ⟨c, hc, hcall⟩ := h4 hf k hkt
    exact ⟨c, Nat.lt_succ_of_lt hc, hcall⟩

/-- `TopN.put` preserves the invariant under either grouping discipline. -/
theorem TopNInv_put [DecidableEq K] [DecidableEq V] [LinearOrder S]
    (t : TopN K V S) (v : V) (s : S) (hg : goodGroup t.group_by) (hI : TopNInv t) :
    TopNInv (t.put v s) := by
  have hIc := hI
  obtain ⟨h1, h2, h3, h4⟩ := hIc
  simp only [TopN.put]
  cases hlook : dictLookup t.data (t.group_by t.counter v) with
  | some old =>
      dsimp only
      have hkmem : t.group_by t.counter v ∈ t.keys := dictLookup_some_mem_keys hlook
      rcases hg with hp | hf
      · split_ifs with hrep
        · exact TopNInv_replace t v s hp hI hkmem
        · exact TopNInv_counter_succ t hI
      · obtain ⟨c, hc, hcall⟩ := h4 hf _ hkmem
        exact absurd (hf.2 c t.counter v v (hcall v)) (Nat.ne_of_lt hc)
  | none =>
      dsimp only
      have hknot : t.group_by t.counter v ∉ t.keys :=
        (dictLookup_eq_none_iff t.data _).mp hlook
      split_ifs with hlen
      · rcases TopN.add_eq_cases { t with counter := t.counter + 1 }
            (t.group_by t.counter v) v s hknot with ⟨_, heq⟩ | ⟨hpnot, heq⟩
        · rw [heq]
          exact TopNInv_counter_succ t hI
        · rw [heq]
          exact TopNInv_append_entry t t.data v s (fun e he => he) h1 h2 hknot hpnot h3 h4
      · split
        · exact TopNInv_counter_succ t hI
        · split_ifs with hms
          · split
            · exact TopNInv_counter_succ t hI
            · rename_i m hlow lk hlk
              have hsubl := dictErase_sublist lk t.data
              have hsub : ∀ e ∈ dictErase t.data lk, e ∈ t.data :=
                fun e he => hsubl.subset he
              have hknd : ((dictErase t.data lk).map Prod.fst).Nodup :=
                h1.sublist (hsubl.map Prod.fst)
              have hpnd : ((dictErase t.data lk).map Prod.snd).Nodup :=
                h2.sublist (hsubl.map Prod.snd)
              have hknot2 : t.group_by t.counter v ∉ (dictErase t.data lk).map Prod.fst :=
                fun hc => hknot ((hsubl.map Prod.fst).subset hc)
              rcases TopN.add_eq_cases
                  { t with data := dictErase t.data lk, counter := t.counter + 1 }
                  (t.group_by t.counter v) v s hknot2 with ⟨_, heq⟩ | ⟨hpnot, heq⟩
              · rw [heq]
                exact TopNInv_erase_succ t lk hI
              · rw [heq]
                exact TopNInv_append_entry t (dictErase t.data lk) v s hsub hknd hpnd
                  hknot2 hpnot h3 h4
          · exact TopNInv_counter_succ t hI

/-- `TopN.put` never changes the grouping function. -/
theorem TopN.put_group_by [DecidableEq K] [DecidableEq V] [LinearOrder S]
    (t : TopN K V S) (v : V) (s : S) : (t.put v s).group_by = t.group_by := by
  simp only [TopN.put, TopN.add]
  repeat' first | rfl | split

/-- C3 counterexample: under the default `group_by` (a fresh identifier per
call, modelled by the call counter), putting the value `7` twice with scores
`5` then `6` into a capacity-2 `TopN` retains two entries holding
structurally equal values: the second put is stored under a new group rather
than rejected, and it does not replace the first — contradicting the claim
that a structurally equal value is never stored a second time regardless of
its score or group key. -/
theorem c3_duplicate_value_retained :
    (((TopN.mk 2 ([] : List (ℕ × ℕ × ℤ)) 0 (fun c _ => c)).put 7 5).put 7 6).get
      = [(7, 5), (7, 6)] := by decide

/-- C3 (amended): duplicate rejection in `TopN` applies to the exact
`(value, score)` pair, not to the value alone: under either grouping
discipline of the source (a pure user-supplied `group_by`, or the fresh
uuid-per-call default), after any sequence of `put` calls starting from an
empty `TopN` no two retained entries hold structurally equal
`(value, score)` pairs.  Structurally equal values with distinct scores can
be retained simultaneously under distinct groups (see the
counterexample). -/
theorem c3_pair_dedup [DecidableEq K] [DecidableEq V] [LinearOrder S]
    (g : ℕ → V → K) (hg : goodGroup g) (n c0 : ℕ) (ops : List (V × S)) :
    ((ops.foldl (fun t p => t.put p.1 p.2) (TopN.mk n [] c0 g)).pairs).Nodup := by
  suffices h : ∀ (l : List (V × S)) (t : TopN K V S), t.group_by = g → TopNInv t →
      TopNInv (l.foldl (fun t p => t.put p.1 p.2) t) by
    exact (h ops (TopN.mk n [] c0 g) rfl
      ⟨List.nodup_nil, List.nodup_nil,
        fun _ e he => absurd he (List.not_mem_nil e),
        fun _ k hk => absurd hk (List.not_mem_nil k)⟩).2.1
  intro l
  induction l with
  | nil => intro t _ hI; exact hI
  | cons p rest ih =>
      intro t hgb hI
      rw [List.foldl_cons]
      exact ih _ ((TopN.put_group_by t p.1 p.2).trans hgb)
        (TopNInv_put t p.1 p.2 (by rw [hgb]; exact hg) hI)

theorem c3_pair_dedup_witness :
    goodGroup (fun (_ : ℕ) (v : ℕ) => v) ∧
    (([((5 : ℕ), (1 : ℤ)), (5, 2), (6, 1)].foldl (fun t p => t.put p.1 p.2)
        (TopN.mk 2 [] 0 (fun _ v => v))).pairs).Nodup :=
  ⟨Or.inl (fun _ _ _ => rfl),
    c3_pair_dedup (fun _ v => v) (Or.inl (fun _ _ _ => rfl)) 2 0 [(5, 1), (5, 2), (6, 1)]⟩

end Bucketlist
